import Mathlib

/-!
Verification of the election-simulation orchestration engine of the
BTDA blockchain voting system (`simulation.py`, `app/simulation.py`).

The Python code is shallowly embedded: pure functions become Lean
functions; Python ints become `Int`/`Nat`; Python floats in the
apportionment and scoring arithmetic become `Rat` (the inputs exercised
by the theorems and the concrete evaluations are exactly representable,
so float and rational evaluation agree there); fallible code returns
`Except String`; randomness (`random.randrange`, `random.sample`) is
injected as an explicit parameter; the thread-interleaved mutation of
the shared gas tracker is modelled by an explicit event schedule.
-/

namespace BTDA

/-- A row of `candidates.csv` as consumed by the strategy functions
(`candidate["political_position"]`, `int(candidate["age"])`,
`int(candidate["experience"])`). -/
structure Candidate where
  name : String
  party : String
  political_position : String
  age : Int
  experience : Int
  gender : String
deriving DecidableEq, Repr

/-- Embedding of `calculate_voters_per_district(number_of_voters,
number_of_districts)` (`simulation.py` lines 306-332, identical copy at
`app/simulation.py` lines 382-408).  Python `//` and `%` are floor
division and floor modulus, hence `Int.fdiv` / `Int.fmod`; `raise
ValueError` becomes `Except.error`. -/
def calculate_voters_per_district (number_of_voters number_of_districts : Int) :
    Except String (List Int) :=
  if number_of_districts > number_of_voters then
    Except.error "Number of districts must be larger or equal to the number of voters"
  else if number_of_districts ≤ 0 then
    Except.error "Number of districts must be positive"
  else if number_of_voters < 0 then
    Except.error "Number of voters cannot be negative"
  else
    let base_voters_per_district := number_of_voters.fdiv number_of_districts
    let extra_voters := number_of_voters.fmod number_of_districts
    Except.ok ((List.range number_of_districts.toNat).map
      (fun (district : ℕ) =>
        if (district : Int) < extra_voters then base_voters_per_district + 1
        else base_voters_per_district))

lemma sum_map_range_ite (k : ℕ) (base extra : Int) (hx0 : 0 ≤ extra) :
    ((List.range k).map
      (fun (i : ℕ) => if (i : Int) < extra then base + 1 else base)).sum
      = k * base + min extra k := by
  induction k with
  | zero => simp; omega
  | succ k ih =>
      rw [List.range_succ, List.map_append, List.sum_append]
      simp only [List.map_cons, List.map_nil, List.sum_cons, List.sum_nil]
      have hmul : ((k : Int) + 1) * base = k * base + base := by ring
      by_cases hk : (k : Int) < extra
      · rw [if_pos hk, ih]
        push_cast
        omega
      · rw [if_neg hk, ih]
        push_cast
        omega

/-- C1: for `V ≥ 0`, `D > 0`, `D ≤ V` the function returns a list of
length `D` summing to `V` whose first `V mod D` entries are `⌊V/D⌋ + 1`
and whose remaining entries are `⌊V/D⌋`; for `D > V`, `D ≤ 0` or
`V < 0` it returns a configuration error. -/
theorem calculate_voters_per_district_correct (V D : Int) :
    (0 < D → D ≤ V →
      ∃ l, calculate_voters_per_district V D = Except.ok l ∧
        l.length = D.toNat ∧ l.sum = V ∧
        ∀ i, i < l.length →
          l.getD i 0 = if (i : Int) < V % D then V / D + 1 else V / D) ∧
    ((V < D ∨ D ≤ 0 ∨ V < 0) →
      ∃ msg, calculate_voters_per_district V D = Except.error msg) := by
  constructor
  · intro hD hDV
    have hV : 0 ≤ V := le_trans (le_of_lt hD) hDV
    have hfd : V.fdiv D = V / D := Int.fdiv_eq_ediv V (le_of_lt hD)
    have hfm : V.fmod D = V % D := Int.fmod_eq_emod V (le_of_lt hD)
    have hdef : calculate_voters_per_district V D =
        Except.ok ((List.range D.toNat).map
          (fun (district : ℕ) =>
            if (district : Int) < V % D then V / D + 1 else V / D)) := by
      unfold calculate_voters_per_district
      rw [if_neg (by omega), if_neg (by omega), if_neg (by omega), hfd, hfm]
    refine ⟨_, hdef, ?_, ?_, ?_⟩
    · simp
    · have hx0 : 0 ≤ V % D := Int.emod_nonneg V (by omega)
      have hxD : V % D < D := Int.emod_lt_of_pos V hD
      rw [sum_map_range_ite _ _ _ hx0]
      have htn : ((D.toNat : Int)) = D := Int.toNat_of_nonneg (le_of_lt hD)
      rw [htn]
      have := Int.ediv_add_emod V D
      have : min (V % D) D = V % D := min_eq_left (le_of_lt hxD)
      omega
    · intro i hi
      simp only [List.length_map, List.length_range] at hi
      simp [List.getD_eq_getElem?_getD, List.getElem?_map, List.getElem?_range, hi]
  · intro h
    unfold calculate_voters_per_district
    split_ifs with h1 h2 h3
    · exact ⟨_, rfl⟩
    · exact ⟨_, rfl⟩
    · exact ⟨_, rfl⟩
    · omega

/-- Witness for C1 at `V = 7`, `D = 3` (valid: the list is `[3, 2, 2]`)
and at `V = 3`, `D = 7` (invalid: a configuration error). -/
theorem calculate_voters_per_district_correct_witness :
    (∃ l, calculate_voters_per_district 7 3 = Except.ok l ∧
      l.length = (3 : Int).toNat ∧ l.sum = 7 ∧
      ∀ i, i < l.length →
        l.getD i 0 = if (i : Int) < 7 % 3 then 7 / 3 + 1 else 7 / 3) ∧
    (∃ msg, calculate_voters_per_district 3 7 = Except.error msg) :=
  ⟨(calculate_voters_per_district_correct 7 3).1 (by decide) (by decide),
   (calculate_voters_per_district_correct 3 7).2 (Or.inl (by decide))⟩

/-- The guard of the zero-voter skip branch of `register_district_sync`
(`simulation.py` lines 174-181): the branch is taken exactly when
`len(district["voters"]) == 0`. -/
def register_district_skip (district_voters : List α) : Bool :=
  district_voters.length == 0

/-- The voter slice `voters[start_index:end_index]` that `run_election`
(`simulation.py` lines 419-421) hands to district `i`, where
`start_index = sum(voters_per_district_list[:i])` and
`end_index = start_index + voters_per_district_list[i]`. -/
def district_voters_slice (voters : List α) (voters_per_district_list : List Int)
    (i : ℕ) : List α :=
  (voters.drop ((voters_per_district_list.take i).sum.toNat)).take
    ((voters_per_district_list.getD i 0).toNat)

/-- C10: for `0 < D ≤ V` every apportioned per-district count is at
least 1, so every district voter slice built by `run_election` from a
voter list of length `V` is non-empty and the zero-voter skip branch of
`register_district_sync` is not taken for it. -/
theorem apportioned_districts_nonempty (V D : Int) (l : List Int)
    (hD : 0 < D) (hDV : D ≤ V)
    (hl : calculate_voters_per_district V D = Except.ok l) :
    (∀ c ∈ l, 1 ≤ c) ∧
    ∀ (voters : List ℕ) (i : ℕ), (voters.length : Int) = V → i < l.length →
      district_voters_slice voters l i ≠ [] ∧
      register_district_skip (district_voters_slice voters l i) = false := by
  obtain ⟨l', hl', hlen, hsum, hent⟩ :=
    (calculate_voters_per_district_correct V D).1 hD hDV
  rw [hl'] at hl
  injection hl with hll
  subst hll
  have hbase : 1 ≤ V / D := by
    have h1 : 1 * D ≤ V := by omega
    exact (Int.le_ediv_iff_mul_le hD).2 h1
  have hone : ∀ c ∈ l', 1 ≤ c := by
    intro c hc
    obtain ⟨i, hi, hci⟩ := List.mem_iff_getElem.1 hc
    have := hent i hi
    rw [List.getD_eq_getElem l' 0 hi] at this
    rw [hci] at this
    split at this <;> omega
  refine ⟨hone, ?_⟩
  intro voters i hvlen hi
  -- the slice has length min l'[i] (V - sum of the earlier counts)
  have hgetD : l'.getD i 0 = l'[i] := List.getD_eq_getElem l' 0 hi
  have hith : 1 ≤ l'[i] := hone _ (List.getElem_mem hi)
  have hdropsum : l'.drop i = l'[i] :: l'.drop (i + 1) :=
    List.drop_eq_getElem_cons hi
  have htksum : (l'.take i).sum + (l'.drop i).sum = V := by
    rw [← List.sum_append, List.take_append_drop, hsum]
  have htail_nonneg : 0 ≤ (l'.drop (i + 1)).sum :=
    List.sum_nonneg (fun c hc => by
      have := hone c (List.mem_of_mem_drop hc); omega)
  have htake_nonneg : 0 ≤ (l'.take i).sum :=
    List.sum_nonneg (fun c hc => by
      have := hone c (List.mem_of_mem_take hc); omega)
  have hbound : (l'.take i).sum + l'[i] ≤ V := by
    rw [hdropsum] at htksum
    simp only [List.sum_cons] at htksum
    omega
  have hlen_slice : (district_voters_slice voters l' i).length =
      min (l'[i]).toNat (voters.length - (l'.take i).sum.toNat) := by
    unfold district_voters_slice
    rw [hgetD, List.length_take, List.length_drop]
  have hpos : 0 < (district_voters_slice voters l' i).length := by
    rw [hlen_slice]
    omega
  constructor
  · exact List.ne_nil_of_length_pos hpos
  · simp only [register_district_skip, beq_eq_false_iff_ne, ne_eq]
    omega

/-- Witness for C10 at `V = 5`, `D = 2` (counts `[3, 2]`) with a
10-voter... rather a 5-element voter list, district index 0. -/
theorem apportioned_districts_nonempty_witness :
    (∀ c ∈ ([3, 2] : List Int), 1 ≤ c) ∧
    ∀ (voters : List ℕ) (i : ℕ),
      (voters.length : Int) = 5 → i < ([3, 2] : List Int).length →
      district_voters_slice voters [3, 2] i ≠ [] ∧
      register_district_skip (district_voters_slice voters [3, 2] i) = false :=
  apportioned_districts_nonempty 5 2 [3, 2] (by decide) (by decide) rfl

/-- Python slice `l[:stop]` where `stop` may be negative (a negative
stop counts from the end of the list). -/
def pySliceTo (l : List α) (stop : Int) : List α :=
  if stop < 0 then l.take ((l.length : Int) + stop).toNat else l.take stop.toNat

/-- The ordering used by `sorted(..., reverse=True)` on the
`(remainder, index)` pairs of `distribute_strategies_to_voters`:
descending lexicographic comparison of tuples.  The index components
are pairwise distinct, so the descending order is unique and the sorted
output does not depend on the sorting algorithm. -/
def remainderDescLE (a b : ℚ × ℕ) : Bool :=
  decide (b.1 < a.1 ∨ (a.1 = b.1 ∧ b.2 ≤ a.2))

/-- The normalised weights `[w / total_w for w in weights]` of
`distribute_strategies_to_voters`; the config dict is an ordered
association list because Python dicts preserve insertion order. -/
def normalizedWeights (voting_strategies_config : List (String × ℚ)) : List ℚ :=
  (voting_strategies_config.map Prod.snd).map
    (fun w => w / (voting_strategies_config.map Prod.snd).sum)

/-- The raw expected seats `raw = [w * len(district_voters) for w in weights]`. -/
def rawSeats (n : ℕ) (voting_strategies_config : List (String × ℚ)) : List ℚ :=
  (normalizedWeights voting_strategies_config).map (fun w => w * n)

/-- The initial seat counts `counts = [floor(r) for r in raw]`. -/
def floorSeats (n : ℕ) (voting_strategies_config : List (String × ℚ)) : List Int :=
  (rawSeats n voting_strategies_config).map (fun r => ⌊r⌋)

/-- The leftover seats `leftover = len(district_voters) - sum(counts)`. -/
def leftoverSeats (n : ℕ) (voting_strategies_config : List (String × ℚ)) : Int :=
  (n : Int) - (floorSeats n voting_strategies_config).sum

/-- The pairs `(raw[i] - counts[i], i) for i in range(len(strategies))`. -/
def remainderPairs (n : ℕ) (voting_strategies_config : List (String × ℚ)) :
    List (ℚ × ℕ) :=
  (List.range voting_strategies_config.length).map
    (fun i => ((rawSeats n voting_strategies_config).getD i 0 -
      (((floorSeats n voting_strategies_config).getD i 0 : Int) : ℚ), i))

/-- Embedding of `remainders = sorted(..., reverse=True)`. -/
def sortedRemainderPairs (n : ℕ) (voting_strategies_config : List (String × ℚ)) :
    List (ℚ × ℕ) :=
  (remainderPairs n voting_strategies_config).mergeSort remainderDescLE

/-- The final seat counts after `for _, idx in remainders[:leftover]:
counts[idx] += 1`. -/
def finalSeatCounts (n : ℕ) (voting_strategies_config : List (String × ℚ)) :
    List Int :=
  (pySliceTo (sortedRemainderPairs n voting_strategies_config)
      (leftoverSeats n voting_strategies_config)).foldl
    (fun cs p => cs.set p.2 (cs.getD p.2 0 + 1))
    (floorSeats n voting_strategies_config)

/-- Embedding of `distribute_strategies_to_voters(district_voters,
voting_strategies_config)` (`simulation.py` lines 139-168, identical
copy at `app/simulation.py` lines 196-218), assembled from the pieces
above: the strategy pool is built by replicating each strategy name
`cnt` times, in the input order of the config. -/
def distribute_strategies_to_voters (district_voters : List V)
    (voting_strategies_config : List (String × ℚ)) : List String :=
  ((voting_strategies_config.map Prod.fst).zip
      (finalSeatCounts district_voters.length voting_strategies_config)).flatMap
    (fun sc => List.replicate sc.2.toNat sc.1)

/-- Strict version of `remainderDescLE`: descending lexicographic
strictly-greater on `(remainder, index)` pairs. -/
def remainderDescLT (a b : ℚ × ℕ) : Bool :=
  decide (b.1 < a.1 ∨ (a.1 = b.1 ∧ b.2 < a.2))

lemma remainderDescLT_asymm (a b : ℚ × ℕ)
    (h1 : remainderDescLT a b = true) (h2 : remainderDescLT b a = true) : False := by
  simp only [remainderDescLT, decide_eq_true_eq] at h1 h2
  rcases h1 with h1 | ⟨h1e, h1l⟩ <;> rcases h2 with h2 | ⟨h2e, h2l⟩
  · exact absurd h2 (not_lt.2 (le_of_lt h1))
  · exact absurd h1 (by rw [h2e]; exact lt_irrefl _)
  · exact absurd h2 (by rw [h1e]; exact lt_irrefl _)
  · omega

lemma remainderDescLE_total (a b : ℚ × ℕ) :
    remainderDescLE a b || remainderDescLE b a := by
  simp only [remainderDescLE, Bool.or_eq_true, decide_eq_true_eq]
  rcases lt_trichotomy a.1 b.1 with h | h | h
  · exact Or.inr (Or.inl h)
  · rcases le_total b.2 a.2 with h2 | h2
    · exact Or.inl (Or.inr ⟨h, h2⟩)
    · exact Or.inr (Or.inr ⟨h.symm, h2⟩)
  · exact Or.inl (Or.inl h)

lemma remainderDescLE_trans (a b c : ℚ × ℕ)
    (hab : remainderDescLE a b) (hbc : remainderDescLE b c) :
    remainderDescLE a c := by
  simp only [remainderDescLE, decide_eq_true_eq] at hab hbc ⊢
  rcases hab with h1 | ⟨h1e, h1l⟩ <;> rcases hbc with h2 | ⟨h2e, h2l⟩
  · exact Or.inl (lt_trans h2 h1)
  · exact Or.inl (h2e ▸ h1)
  · exact Or.inl (h1e.symm ▸ h2)
  · exact Or.inr ⟨h1e.trans h2e, le_trans h2l h1l⟩

lemma remainderDescLT_of_le_of_ne (a b : ℚ × ℕ)
    (hle : remainderDescLE a b = true) (hne : a ≠ b) :
    remainderDescLT a b = true := by
  simp only [remainderDescLE, decide_eq_true_eq] at hle
  simp only [remainderDescLT, decide_eq_true_eq]
  rcases hle with h | ⟨he, hl⟩
  · exact Or.inl h
  · rcases lt_or_eq_of_le hl with h2 | h2
    · exact Or.inr ⟨he, h2⟩
    · exact absurd (Prod.ext he.symm h2) (by intro hh; exact hne hh.symm)

/-- In a list that is strictly sorted with respect to an asymmetric
relation, an element lies among the first `m` entries exactly when
fewer than `m` entries of the list are strictly above it. -/
lemma mem_take_iff_countP_lt {α : Type*} {r : α → α → Bool}
    (hasym : ∀ a b, r a b = true → r b a = true → False) :
    ∀ (l : List α) (m : ℕ) (x : α), l.Pairwise (fun a b => r a b = true) →
      (x ∈ l.take m ↔ x ∈ l ∧ l.countP (fun y => r y x) < m) := by
  intro l
  induction l with
  | nil => intro m x _; simp
  | cons a t ih =>
      intro m x hp
      have ha : ∀ y ∈ t, r a y = true := (List.pairwise_cons.1 hp).1
      have hpt : t.Pairwise (fun a b => r a b = true) := (List.pairwise_cons.1 hp).2
      cases m with
      | zero => simp
      | succ m =>
          rw [List.take_succ_cons]
          by_cases hxa : x = a
          · subst hxa
            have hxx : r x x = false := by
              by_contra h
              exact hasym x x (by simpa using h) (by simpa using h)
            have hct : t.countP (fun y => r y x) = 0 := by
              rw [List.countP_eq_zero]
              intro y hy
              by_contra h
              exact hasym x y (ha y hy) (by simpa using h)
            simp [List.countP_cons, hct, hxx]
          · by_cases hxt : x ∈ t
            · have hax : r a x = true := ha x hxt
              have := ih m x hpt
              simp only [List.mem_cons, List.countP_cons, hax, eq_self_iff_true,
                if_true] at *
              constructor
              · intro hmem
                rcases hmem with h | h
                · exact absurd h hxa
                · have := (this.1 h)
                  exact ⟨Or.inr this.1, by omega⟩
              · intro ⟨_, hcnt⟩
                exact Or.inr (this.2 ⟨hxt, by omega⟩)
            · constructor
              · intro hmem
                rcases List.mem_cons.1 hmem with h | h
                · exact absurd h hxa
                · exact absurd (List.mem_of_mem_take h) hxt
              · intro ⟨hmem, _⟩
                rcases List.mem_cons.1 hmem with h | h
                · exact absurd h hxa
                · exact absurd h hxt

/-- The fractional remainder `raw[i] - counts[i]` of strategy `i`. -/
def remainderOf (n : ℕ) (config : List (String × ℚ)) (i : ℕ) : ℚ :=
  (rawSeats n config).getD i 0 - (((floorSeats n config).getD i 0 : Int) : ℚ)

/-- The `(remainder, index)` pair of strategy `i`. -/
def pairAt (n : ℕ) (config : List (String × ℚ)) (i : ℕ) : ℚ × ℕ :=
  (remainderOf n config i, i)

/-- Strategy `i` is served a leftover seat before strategy `j`:
strictly larger fractional remainder, or an equal remainder and a later
position in the input ordering. -/
def seatBeats (n : ℕ) (config : List (String × ℚ)) (i j : ℕ) : Bool :=
  decide (remainderOf n config j < remainderOf n config i ∨
    (remainderOf n config i = remainderOf n config j ∧ j < i))

/-- The number of strategies served a leftover seat before strategy `j`. -/
def seatRank (n : ℕ) (config : List (String × ℚ)) (j : ℕ) : ℕ :=
  (List.range config.length).countP (fun i => seatBeats n config i j)

lemma remainderPairs_eq_map_pairAt (n : ℕ) (config : List (String × ℚ)) :
    remainderPairs n config = (List.range config.length).map (pairAt n config) := rfl

lemma length_rawSeats (n : ℕ) (config : List (String × ℚ)) :
    (rawSeats n config).length = config.length := by
  simp [rawSeats, normalizedWeights]

lemma length_floorSeats (n : ℕ) (config : List (String × ℚ)) :
    (floorSeats n config).length = config.length := by
  simp [floorSeats, length_rawSeats]

lemma remainderPairs_map_snd (n : ℕ) (config : List (String × ℚ)) :
    (remainderPairs n config).map Prod.snd = List.range config.length := by
  simp [remainderPairs_eq_map_pairAt, List.map_map, pairAt]
  exact List.map_id _

lemma nodup_remainderPairs (n : ℕ) (config : List (String × ℚ)) :
    (remainderPairs n config).Nodup :=
  List.Nodup.of_map Prod.snd
    (by rw [remainderPairs_map_snd]; exact List.nodup_range _)

lemma sortedRemainderPairs_perm (n : ℕ) (config : List (String × ℚ)) :
    (sortedRemainderPairs n config).Perm (remainderPairs n config) :=
  List.mergeSort_perm _ _

lemma sortedRemainderPairs_pairwise_strict (n : ℕ) (config : List (String × ℚ)) :
    (sortedRemainderPairs n config).Pairwise
      (fun a b => remainderDescLT a b = true) := by
  have hle : (sortedRemainderPairs n config).Pairwise
      (fun a b => remainderDescLE a b = true) :=
    List.sorted_mergeSort remainderDescLE_trans remainderDescLE_total _
  have hnd : (sortedRemainderPairs n config).Nodup :=
    ((nodup_remainderPairs n config).perm (sortedRemainderPairs_perm n config).symm)
  exact (hle.and hnd).imp (fun h => remainderDescLT_of_le_of_ne _ _ h.1 h.2)

lemma pairAt_mem_remainderPairs (n : ℕ) (config : List (String × ℚ)) (j : ℕ)
    (hj : j < config.length) :
    pairAt n config j ∈ remainderPairs n config := by
  rw [remainderPairs_eq_map_pairAt]
  exact List.mem_map_of_mem _ (List.mem_range.2 hj)

lemma mem_remainderPairs_eq_pairAt (n : ℕ) (config : List (String × ℚ))
    (p : ℚ × ℕ) (hp : p ∈ remainderPairs n config) :
    p = pairAt n config p.2 ∧ p.2 < config.length := by
  rw [remainderPairs_eq_map_pairAt] at hp
  obtain ⟨i, hi, rfl⟩ := List.mem_map.1 hp
  exact ⟨rfl, List.mem_range.1 hi⟩

section FoldIncrement

/-- The loop body of `for _, idx in remainders[:leftover]: counts[idx] += 1`. -/
def bumpCounts (cs : List Int) (p : ℚ × ℕ) : List Int :=
  cs.set p.2 (cs.getD p.2 0 + 1)

lemma finalSeatCounts_eq_foldl_bump (n : ℕ) (config : List (String × ℚ)) :
    finalSeatCounts n config =
      (pySliceTo (sortedRemainderPairs n config) (leftoverSeats n config)).foldl
        bumpCounts (floorSeats n config) := rfl

lemma getD_set_incr (cs : List Int) (i j : ℕ) (hi : i < cs.length) :
    (cs.set i (cs.getD i 0 + 1)).getD j 0 =
      cs.getD j 0 + (if j = i then 1 else 0) := by
  by_cases h : i = j
  · subst h
    simp [List.getD_eq_getElem?_getD, List.getElem?_set, hi]
  · simp [List.getD_eq_getElem?_getD, List.getElem?_set, h, Ne.symm h]

lemma sum_set_incr (cs : List Int) (i : ℕ) (hi : i < cs.length) :
    (cs.set i (cs.getD i 0 + 1)).sum = cs.sum + 1 := by
  induction cs generalizing i with
  | nil => simp at hi
  | cons c t ih =>
      cases i with
      | zero => simp [List.getD]; ring
      | succ i =>
          have hset : (c :: t).set (i + 1) ((c :: t).getD (i + 1) 0 + 1) =
              c :: t.set i (t.getD i 0 + 1) := rfl
          rw [hset, List.sum_cons, ih i (by simpa using hi)]
          simp only [List.sum_cons]
          ring

lemma foldl_bump_length (taken : List (ℚ × ℕ)) (cs : List Int) :
    (taken.foldl bumpCounts cs).length = cs.length := by
  induction taken generalizing cs with
  | nil => rfl
  | cons p rest ih => simp [List.foldl_cons, ih, bumpCounts]

lemma foldl_bump_getD (taken : List (ℚ × ℕ)) (cs : List Int)
    (hnd : (taken.map Prod.snd).Nodup) (hlt : ∀ p ∈ taken, p.2 < cs.length) (j : ℕ) :
    (taken.foldl bumpCounts cs).getD j 0 =
      cs.getD j 0 + (if j ∈ taken.map Prod.snd then 1 else 0) := by
  induction taken generalizing cs with
  | nil => simp
  | cons p rest ih =>
      simp only [List.map_cons, List.nodup_cons] at hnd
      have hp : p.2 < cs.length := hlt p (List.mem_cons_self p rest)
      have hlt' : ∀ q ∈ rest, q.2 < (bumpCounts cs p).length := by
        intro q hq
        simpa [bumpCounts] using hlt q (List.mem_cons_of_mem _ hq)
      rw [List.foldl_cons, ih (bumpCounts cs p) hnd.2 hlt']
      unfold bumpCounts
      rw [getD_set_incr cs p.2 j hp]
      by_cases hj : j = p.2
      · subst hj
        simp [hnd.1]
      · simp only [List.map_cons, List.mem_cons, hj]
        by_cases hm : j ∈ List.map Prod.snd rest <;> simp [hm]

lemma foldl_bump_sum (taken : List (ℚ × ℕ)) (cs : List Int)
    (hlt : ∀ p ∈ taken, p.2 < cs.length) :
    (taken.foldl bumpCounts cs).sum = cs.sum + taken.length := by
  induction taken generalizing cs with
  | nil => simp
  | cons p rest ih =>
      have hp : p.2 < cs.length := hlt p (List.mem_cons_self p rest)
      have hlt' : ∀ q ∈ rest, q.2 < (bumpCounts cs p).length := by
        intro q hq
        simpa [bumpCounts] using hlt q (List.mem_cons_of_mem _ hq)
      rw [List.foldl_cons, ih _ hlt']
      unfold bumpCounts
      rw [sum_set_incr cs p.2 hp]
      simp only [List.length_cons]
      push_cast
      ring

end FoldIncrement

section SeatSums

lemma sum_rawSeats (n : ℕ) (config : List (String × ℚ))
    (hW : (config.map Prod.snd).sum ≠ 0) :
    (rawSeats n config).sum = n := by
  unfold rawSeats normalizedWeights
  rw [List.map_map]
  have h : ((fun w : ℚ => w * (n : ℚ)) ∘ (fun w => w / (config.map Prod.snd).sum)) =
      (fun w : ℚ => w * ((n : ℚ) / (config.map Prod.snd).sum)) := by
    funext w
    simp only [Function.comp_apply]
    ring
  rw [h, List.sum_map_mul_right]
  have hid : (config.map Prod.snd).map (fun w : ℚ => w) = config.map Prod.snd :=
    List.map_id' _
  rw [hid]
  field_simp

lemma sum_map_sub_one (l : List ℚ) :
    (l.map (fun r => r - 1)).sum = l.sum - l.length := by
  induction l with
  | nil => simp
  | cons r t ih =>
      simp only [List.map_cons, List.sum_cons, List.length_cons, ih]
      push_cast
      ring

lemma sum_floorSeats_bounds (n : ℕ) (config : List (String × ℚ)) :
    ((rawSeats n config).sum - config.length : ℚ) ≤ ((floorSeats n config).sum : ℚ) ∧
      ((floorSeats n config).sum : ℚ) ≤ (rawSeats n config).sum := by
  unfold floorSeats
  rw [Int.cast_list_sum, List.map_map]
  constructor
  · have h1 : ((rawSeats n config).map (fun r => r - 1)).sum ≤
        ((rawSeats n config).map (fun r => ((⌊r⌋ : Int) : ℚ))).sum :=
      List.sum_le_sum (fun r _ => le_of_lt (Int.sub_one_lt_floor r))
    rw [sum_map_sub_one, length_rawSeats] at h1
    exact h1
  · have h1 : ((rawSeats n config).map (fun r => ((⌊r⌋ : Int) : ℚ))).sum ≤
        ((rawSeats n config).map (fun r => r)).sum :=
      List.sum_le_sum (fun r _ => Int.floor_le r)
    rw [List.map_id'] at h1
    exact h1

end SeatSums

lemma leftoverSeats_bounds (n : ℕ) (config : List (String × ℚ))
    (hW : (config.map Prod.snd).sum ≠ 0) :
    0 ≤ leftoverSeats n config ∧ leftoverSeats n config ≤ config.length := by
  unfold leftoverSeats
  obtain ⟨hlow, hhigh⟩ := sum_floorSeats_bounds n config
  rw [sum_rawSeats n config hW] at hlow hhigh
  constructor
  · have h2 : (floorSeats n config).sum ≤ (n : Int) := by exact_mod_cast hhigh
    omega
  · have h2 : (n : Int) - (config.length : Int) ≤ (floorSeats n config).sum := by
      exact_mod_cast hlow
    omega

lemma length_sortedRemainderPairs (n : ℕ) (config : List (String × ℚ)) :
    (sortedRemainderPairs n config).length = config.length := by
  simp [sortedRemainderPairs, remainderPairs]

/-- The slice `remainders[:leftover]` of served pairs. -/
def takenPairs (n : ℕ) (config : List (String × ℚ)) : List (ℚ × ℕ) :=
  pySliceTo (sortedRemainderPairs n config) (leftoverSeats n config)

lemma finalSeatCounts_eq_foldl_taken (n : ℕ) (config : List (String × ℚ)) :
    finalSeatCounts n config = (takenPairs n config).foldl bumpCounts
      (floorSeats n config) := rfl

lemma takenPairs_eq_take (n : ℕ) (config : List (String × ℚ))
    (hW : (config.map Prod.snd).sum ≠ 0) :
    takenPairs n config =
      (sortedRemainderPairs n config).take (leftoverSeats n config).toNat := by
  unfold takenPairs pySliceTo
  rw [if_neg (not_lt.2 (leftoverSeats_bounds n config hW).1)]

lemma takenPairs_sublist (n : ℕ) (config : List (String × ℚ))
    (hW : (config.map Prod.snd).sum ≠ 0) :
    (takenPairs n config).Sublist (sortedRemainderPairs n config) := by
  rw [takenPairs_eq_take n config hW]
  exact List.take_sublist _ _

lemma mem_takenPairs_of_mem (n : ℕ) (config : List (String × ℚ))
    (hW : (config.map Prod.snd).sum ≠ 0) (p : ℚ × ℕ)
    (hp : p ∈ takenPairs n config) : p ∈ remainderPairs n config :=
  (sortedRemainderPairs_perm n config).subset
    ((takenPairs_sublist n config hW).subset hp)

lemma nodup_takenPairs_snd (n : ℕ) (config : List (String × ℚ))
    (hW : (config.map Prod.snd).sum ≠ 0) :
    ((takenPairs n config).map Prod.snd).Nodup := by
  have hperm : ((sortedRemainderPairs n config).map Prod.snd).Perm
      ((remainderPairs n config).map Prod.snd) :=
    (sortedRemainderPairs_perm n config).map Prod.snd
  have hnd : ((sortedRemainderPairs n config).map Prod.snd).Nodup := by
    refine hperm.symm.nodup ?_
    rw [remainderPairs_map_snd]
    exact List.nodup_range _
  exact hnd.sublist ((takenPairs_sublist n config hW).map Prod.snd)

lemma mem_takenPairs_iff (n : ℕ) (config : List (String × ℚ))
    (hW : (config.map Prod.snd).sum ≠ 0) (j : ℕ) (hj : j < config.length) :
    (pairAt n config j ∈ takenPairs n config) ↔
      ((seatRank n config j : Int) < leftoverSeats n config) := by
  rw [takenPairs_eq_take n config hW]
  rw [mem_take_iff_countP_lt remainderDescLT_asymm _ _ _
    (sortedRemainderPairs_pairwise_strict n config)]
  have hmem : pairAt n config j ∈ sortedRemainderPairs n config :=
    (sortedRemainderPairs_perm n config).mem_iff.2
      (pairAt_mem_remainderPairs n config j hj)
  have hcount : (sortedRemainderPairs n config).countP
      (fun y => remainderDescLT y (pairAt n config j)) = seatRank n config j := by
    rw [(sortedRemainderPairs_perm n config).countP_eq]
    rw [remainderPairs_eq_map_pairAt, List.countP_map]
    rfl
  rw [hcount]
  have h0 : 0 ≤ leftoverSeats n config := (leftoverSeats_bounds n config hW).1
  constructor
  · intro ⟨_, hlt⟩
    omega
  · intro hlt
    exact ⟨hmem, by omega⟩

lemma finalSeatCounts_getD_eq (n : ℕ) (config : List (String × ℚ))
    (hW : (config.map Prod.snd).sum ≠ 0)
    (j : ℕ) (hj : j < config.length) :
    (finalSeatCounts n config).getD j 0 =
      (floorSeats n config).getD j 0 +
        (if (seatRank n config j : Int) < leftoverSeats n config
          then 1 else 0) := by
  have hlt : ∀ p ∈ takenPairs n config, p.2 < (floorSeats n config).length := by
    intro p hp
    rw [length_floorSeats]
    exact (mem_remainderPairs_eq_pairAt n config p
      (mem_takenPairs_of_mem n config hW p hp)).2
  rw [finalSeatCounts_eq_foldl_taken]
  rw [foldl_bump_getD _ _ (nodup_takenPairs_snd n config hW) hlt j]
  congr 1
  have hmem_iff : (j ∈ (takenPairs n config).map Prod.snd) ↔
      pairAt n config j ∈ takenPairs n config := by
    constructor
    · intro hm
      obtain ⟨p, hp, hpj⟩ := List.mem_map.1 hm
      have := (mem_remainderPairs_eq_pairAt n config p
        (mem_takenPairs_of_mem n config hW p hp)).1
      rw [hpj] at this
      rw [← this]
      exact hp
    · intro hm
      exact List.mem_map.2 ⟨pairAt n config j, hm, rfl⟩
  rw [if_congr (hmem_iff.trans (mem_takenPairs_iff n config hW j hj)) rfl rfl]

/-- C2 (amended): after flooring the raw expected seats, each leftover
seat goes to the strategies with the largest fractional remainder, and
a tie between equal remainders is broken by the position in the input
ordering with the LAST-listed strategy winning: strategy `j` receives a
bonus seat exactly when the number of strategies `i` with a strictly
larger remainder, or an equal remainder and a later position (`i > j`),
is smaller than the number of leftover seats. -/
theorem distribute_strategies_leftover_assignment (district_voters : List ℕ)
    (config : List (String × ℚ))
    (hW : (config.map Prod.snd).sum ≠ 0)
    (j : ℕ) (hj : j < config.length) :
    (finalSeatCounts district_voters.length config).getD j 0 =
      (floorSeats district_voters.length config).getD j 0 +
        (if (seatRank district_voters.length config j : Int) <
            leftoverSeats district_voters.length config then 1 else 0) :=
  finalSeatCounts_getD_eq district_voters.length config hW j hj

/-- Witness for C2 at 3 voters and the two-strategy config
`{a: 1, b: 1}`: both strategies have fractional remainder `1/2` and
there is one leftover seat; the last-listed strategy `b` (index 1) has
rank 0 and receives it, the first-listed `a` (index 0) has rank 1 and
does not. -/
theorem distribute_strategies_leftover_assignment_witness :
    ((finalSeatCounts 3 [("a", 1), ("b", 1)]).getD 1 0 =
      (floorSeats 3 [("a", 1), ("b", 1)]).getD 1 0 +
        (if ((seatRank 3 [("a", 1), ("b", 1)] 1 : Int) <
            leftoverSeats 3 [("a", 1), ("b", 1)]) then 1 else 0)) ∧
    ((finalSeatCounts 3 [("a", 1), ("b", 1)]).getD 0 0 =
      (floorSeats 3 [("a", 1), ("b", 1)]).getD 0 0 +
        (if ((seatRank 3 [("a", 1), ("b", 1)] 0 : Int) <
            leftoverSeats 3 [("a", 1), ("b", 1)]) then 1 else 0)) :=
  ⟨distribute_strategies_leftover_assignment [0, 1, 2] [("a", 1), ("b", 1)]
      (by norm_num) 1 (by norm_num),
   distribute_strategies_leftover_assignment [0, 1, 2] [("a", 1), ("b", 1)]
      (by norm_num) 0 (by norm_num)⟩

lemma mergeSort_pair {α : Type*} (le : α → α → Bool) (a b : α) :
    [a, b].mergeSort le = if le a b then [a, b] else [b, a] := by
  rw [List.mergeSort]
  simp [List.splitInTwo, List.merge]

/-- Counterexample to C2 as stated: with 3 voters and the config
`{a: 1, b: 1}` both strategies have fractional remainder `1/2`; if the
first-listed strategy won the tie the pool would be `[a, a, b]`, but
the code produces `[a, b, b]` - the tie goes to the last-listed
strategy. -/
theorem distribute_strategies_tie_not_first_listed :
    distribute_strategies_to_voters [0, 1, 2] [("a", 1), ("b", 1)] = ["a", "b", "b"] ∧
    distribute_strategies_to_voters [0, 1, 2] [("a", 1), ("b", 1)] ≠ ["a", "a", "b"] := by
  have h : distribute_strategies_to_voters [0, 1, 2] [("a", 1), ("b", 1)] =
      ["a", "b", "b"] := by
    simp only [distribute_strategies_to_voters, finalSeatCounts, pySliceTo,
      leftoverSeats, sortedRemainderPairs, remainderPairs, rawSeats, floorSeats,
      normalizedWeights]
    norm_num [List.range_succ]
    rw [mergeSort_pair]
    norm_num [remainderDescLE]
    rfl
  refine ⟨h, ?_⟩
  rw [h]
  decide

section PoolCounting

variable {α : Type*} [DecidableEq α]

lemma count_flatMap_replicate_zero (pairs : List (α × Int)) (s : α)
    (hs : s ∉ pairs.map Prod.fst) :
    (pairs.flatMap (fun sc => List.replicate sc.2.toNat sc.1)).count s = 0 := by
  induction pairs with
  | nil => simp
  | cons p rest ih =>
      simp only [List.map_cons, List.mem_cons] at hs
      push_neg at hs
      rw [List.flatMap_cons, List.count_append, ih hs.2]
      rw [List.count_replicate]
      simp [Ne.symm hs.1]

lemma count_flatMap_replicate_getElem (pairs : List (α × Int))
    (hnd : (pairs.map Prod.fst).Nodup) (j : ℕ) (hj : j < pairs.length) :
    (pairs.flatMap (fun sc => List.replicate sc.2.toNat sc.1)).count (pairs[j].1) =
      (pairs[j].2).toNat := by
  induction pairs generalizing j with
  | nil => simp at hj
  | cons p rest ih =>
      simp only [List.map_cons, List.nodup_cons] at hnd
      cases j with
      | zero =>
          simp only [List.getElem_cons_zero]
          rw [List.flatMap_cons, List.count_append,
            count_flatMap_replicate_zero rest p.1 hnd.1]
          simp
      | succ j =>
          have hj' : j < rest.length := by simpa using hj
          simp only [List.getElem_cons_succ]
          rw [List.flatMap_cons, List.count_append, ih hnd.2 j hj']
          have hne : p.1 ≠ rest[j].1 := by
            intro he
            exact hnd.1 (he ▸ List.mem_map_of_mem Prod.fst (List.getElem_mem hj'))
          rw [List.count_replicate]
          simp [hne]

lemma flatMap_replicate_grouped (pairs : List (α × Int))
    (hnd : (pairs.map Prod.fst).Nodup) :
    pairs.flatMap (fun sc => List.replicate sc.2.toNat sc.1) =
      (pairs.map Prod.fst).flatMap (fun s =>
        List.replicate
          ((pairs.flatMap (fun sc => List.replicate sc.2.toNat sc.1)).count s) s) := by
  induction pairs with
  | nil => simp
  | cons p rest ih =>
      simp only [List.map_cons, List.nodup_cons] at hnd
      have hhead : (List.replicate p.2.toNat p.1 ++
          rest.flatMap (fun sc => List.replicate sc.2.toNat sc.1)).count p.1 =
            p.2.toNat := by
        rw [List.count_append, count_flatMap_replicate_zero rest p.1 hnd.1]
        simp
      have htail : ∀ s ∈ rest.map Prod.fst,
          (List.replicate p.2.toNat p.1 ++
            rest.flatMap (fun sc => List.replicate sc.2.toNat sc.1)).count s =
              (rest.flatMap (fun sc => List.replicate sc.2.toNat sc.1)).count s := by
        intro s hs
        have hne : s ≠ p.1 := fun he => hnd.1 (he ▸ hs)
        rw [List.count_append, List.count_replicate]
        simp [Ne.symm hne]
      rw [List.map_cons, List.flatMap_cons, List.flatMap_cons, hhead]
      have hcongr : (rest.map Prod.fst).flatMap (fun s =>
            List.replicate
              ((List.replicate p.2.toNat p.1 ++
                rest.flatMap (fun sc => List.replicate sc.2.toNat sc.1)).count s) s) =
          (rest.map Prod.fst).flatMap (fun s =>
            List.replicate
              ((rest.flatMap (fun sc => List.replicate sc.2.toNat sc.1)).count s) s) :=
        List.flatMap_congr (fun s hs => by rw [htail s hs])
      rw [hcongr, ← ih hnd.2]

end PoolCounting

lemma sum_map_toNat_cast (l : List Int) (h : ∀ x ∈ l, 0 ≤ x) :
    ((l.map Int.toNat).sum : Int) = l.sum := by
  induction l with
  | nil => simp
  | cons x t ih =>
      simp only [List.map_cons, List.sum_cons, Nat.cast_add]
      rw [Int.toNat_of_nonneg (h x (List.mem_cons_self x t)),
        ih (fun y hy => h y (List.mem_cons_of_mem x hy))]

lemma rawSeats_nonneg (n : ℕ) (config : List (String × ℚ))
    (hw : ∀ w ∈ config.map Prod.snd, 0 ≤ w)
    (hpos : 0 < (config.map Prod.snd).sum) :
    ∀ r ∈ rawSeats n config, 0 ≤ r := by
  intro r hr
  unfold rawSeats normalizedWeights at hr
  simp only [List.map_map, List.mem_map, Function.comp_apply] at hr
  obtain ⟨pw, hmem, rfl⟩ := hr
  exact mul_nonneg (div_nonneg (hw pw.2 (List.mem_map_of_mem Prod.snd hmem)) hpos.le)
    (Nat.cast_nonneg n)

lemma floorSeats_nonneg (n : ℕ) (config : List (String × ℚ))
    (hw : ∀ w ∈ config.map Prod.snd, 0 ≤ w)
    (hpos : 0 < (config.map Prod.snd).sum) :
    ∀ c ∈ floorSeats n config, 0 ≤ c := by
  intro c hc
  unfold floorSeats at hc
  obtain ⟨r, hr, rfl⟩ := List.mem_map.1 hc
  exact Int.floor_nonneg.2 (rawSeats_nonneg n config hw hpos r hr)

lemma length_finalSeatCounts (n : ℕ) (config : List (String × ℚ)) :
    (finalSeatCounts n config).length = config.length := by
  rw [finalSeatCounts_eq_foldl_taken, foldl_bump_length, length_floorSeats]

lemma finalSeatCounts_nonneg (n : ℕ) (config : List (String × ℚ))
    (hw : ∀ w ∈ config.map Prod.snd, 0 ≤ w)
    (hpos : 0 < (config.map Prod.snd).sum) :
    ∀ c ∈ finalSeatCounts n config, 0 ≤ c := by
  intro c hc
  obtain ⟨j, hj, rfl⟩ := List.mem_iff_getElem.1 hc
  have hj' : j < config.length := by
    rw [← length_finalSeatCounts n config]; exact hj
  rw [← List.getD_eq_getElem _ 0 hj]
  rw [finalSeatCounts_getD_eq n config hpos.ne' j hj']
  have hfl : 0 ≤ (floorSeats n config).getD j 0 := by
    have hjf : j < (floorSeats n config).length := by
      rw [length_floorSeats]; exact hj'
    rw [List.getD_eq_getElem _ 0 hjf]
    exact floorSeats_nonneg n config hw hpos _ (List.getElem_mem hjf)
  split <;> omega

lemma sum_finalSeatCounts (n : ℕ) (config : List (String × ℚ))
    (hW : (config.map Prod.snd).sum ≠ 0) :
    (finalSeatCounts n config).sum = n := by
  have hlt : ∀ p ∈ takenPairs n config, p.2 < (floorSeats n config).length := by
    intro p hp
    rw [length_floorSeats]
    exact (mem_remainderPairs_eq_pairAt n config p
      (mem_takenPairs_of_mem n config hW p hp)).2
  rw [finalSeatCounts_eq_foldl_taken, foldl_bump_sum _ _ hlt]
  have hbounds := leftoverSeats_bounds n config hW
  have hlen : (takenPairs n config).length = (leftoverSeats n config).toNat := by
    rw [takenPairs_eq_take n config hW, List.length_take,
      length_sortedRemainderPairs]
    omega
  rw [hlen]
  unfold leftoverSeats at *
  omega

lemma rawSeats_getD (n : ℕ) (config : List (String × ℚ)) (j : ℕ)
    (hj : j < config.length) :
    (rawSeats n config).getD j 0 =
      config[j].2 / (config.map Prod.snd).sum * n := by
  unfold rawSeats normalizedWeights
  rw [List.map_map, List.map_map]
  rw [List.getD_eq_getElem _ 0 (by simpa using hj), List.getElem_map]
  rfl

lemma floorSeats_getD (n : ℕ) (config : List (String × ℚ)) (j : ℕ)
    (hj : j < config.length) :
    (floorSeats n config).getD j 0 = ⌊(rawSeats n config).getD j 0⌋ := by
  unfold floorSeats
  have hjr : j < (rawSeats n config).length := by rw [length_rawSeats]; exact hj
  have hjm : j < ((rawSeats n config).map (fun r => ⌊r⌋)).length := by
    rw [List.length_map]; exact hjr
  rw [List.getD_eq_getElem _ 0 hjm, List.getElem_map, List.getD_eq_getElem _ 0 hjr]

/-- C3: for a weight map with nonnegative weights and positive total
weight, the strategy pool has exactly one entry per district voter, is
grouped contiguously by strategy in the input ordering of the config,
and each strategy appears within plus or minus one of its normalised
weight times the district size. -/
theorem distribute_strategies_pool_spec (district_voters : List ℕ)
    (config : List (String × ℚ))
    (hnd : (config.map Prod.fst).Nodup)
    (hw : ∀ w ∈ config.map Prod.snd, 0 ≤ w)
    (hpos : 0 < (config.map Prod.snd).sum) :
    (distribute_strategies_to_voters district_voters config).length =
      district_voters.length ∧
    distribute_strategies_to_voters district_voters config =
      (config.map Prod.fst).flatMap (fun s =>
        List.replicate
          ((distribute_strategies_to_voters district_voters config).count s) s) ∧
    ∀ p ∈ config,
      |((distribute_strategies_to_voters district_voters config).count p.1 : ℚ) -
        p.2 / (config.map Prod.snd).sum * district_voters.length| ≤ 1 := by
  have hW : (config.map Prod.snd).sum ≠ 0 := hpos.ne'
  set n := district_voters.length with hn
  set counts := finalSeatCounts n config with hcounts
  have hclen : counts.length = config.length := length_finalSeatCounts n config
  have hfstlen : (config.map Prod.fst).length = config.length := List.length_map _ _
  have hmapfst : ((config.map Prod.fst).zip counts).map Prod.fst =
      config.map Prod.fst :=
    List.map_fst_zip _ _ (by rw [hfstlen, hclen])
  have hmapsnd : ((config.map Prod.fst).zip counts).map Prod.snd = counts :=
    List.map_snd_zip _ _ (by rw [hfstlen, hclen])
  have hziplen : ((config.map Prod.fst).zip counts).length = config.length := by
    rw [List.length_zip, hfstlen, hclen, Nat.min_self]
  have hnd' : (((config.map Prod.fst).zip counts).map Prod.fst).Nodup := by
    rw [hmapfst]; exact hnd
  have hnonneg : ∀ c ∈ counts, 0 ≤ c := finalSeatCounts_nonneg n config hw hpos
  have hdef : distribute_strategies_to_voters district_voters config =
      ((config.map Prod.fst).zip counts).flatMap
        (fun sc => List.replicate sc.2.toNat sc.1) := rfl
  refine ⟨?_, ?_, ?_⟩
  · rw [hdef, List.flatMap_def, List.length_flatten, List.map_map]
    have hcomp : (List.length ∘ fun sc : String × Int =>
        List.replicate sc.2.toNat sc.1) = (fun sc : String × Int => sc.2.toNat) := by
      funext sc; simp
    rw [hcomp]
    have h2 : ((config.map Prod.fst).zip counts).map
        (fun sc : String × Int => sc.2.toNat) = counts.map Int.toNat := by
      rw [show (fun sc : String × Int => sc.2.toNat) =
        (Int.toNat ∘ Prod.snd) from rfl, ← List.map_map, hmapsnd]
    rw [h2]
    have h3 : ((counts.map Int.toNat).sum : Int) = counts.sum :=
      sum_map_toNat_cast _ hnonneg
    have h4 : counts.sum = n := sum_finalSeatCounts n config hW
    omega
  · rw [hdef]
    have hgr := flatMap_replicate_grouped ((config.map Prod.fst).zip counts) hnd'
    rw [hmapfst] at hgr
    exact hgr
  · intro p hp
    obtain ⟨j, hj, hpj⟩ := List.mem_iff_getElem.1 hp
    have hjz : j < ((config.map Prod.fst).zip counts).length := by
      rw [hziplen]; exact hj
    have hjf : j < (config.map Prod.fst).length := by rw [hfstlen]; exact hj
    have hjc : j < counts.length := by rw [hclen]; exact hj
    have hgz : ((config.map Prod.fst).zip counts)[j] =
        ((config.map Prod.fst)[j], counts[j]) := List.getElem_zip
    have hfst : (config.map Prod.fst)[j] = p.1 := by
      rw [List.getElem_map]
      rw [hpj]
    have hcount : (distribute_strategies_to_voters district_voters config).count p.1 =
        counts[j].toNat := by
      rw [hdef]
      have hcnt := count_flatMap_replicate_getElem _ hnd' j hjz
      rw [hgz] at hcnt
      simpa [hfst] using hcnt
    rw [hcount]
    have hcval : counts[j] = (floorSeats n config).getD j 0 +
        (if (seatRank n config j : Int) < leftoverSeats n config then 1 else 0) := by
      rw [← List.getD_eq_getElem counts 0 hjc]
      exact finalSeatCounts_getD_eq n config hW j hj
    have hfl : (floorSeats n config).getD j 0 = ⌊(rawSeats n config).getD j 0⌋ :=
      floorSeats_getD n config j hj
    have hraw : (rawSeats n config).getD j 0 =
        p.2 / (config.map Prod.snd).sum * n := by
      rw [rawSeats_getD n config j hj, hpj]
    have hcj : 0 ≤ counts[j] := hnonneg _ (List.getElem_mem hjc)
    have hcast : ((counts[j].toNat : ℕ) : ℚ) = (counts[j] : ℚ) := by
      exact_mod_cast congrArg (fun z : Int => (z : ℚ)) (Int.toNat_of_nonneg hcj)
    rw [hcast]
    set r : ℚ := (rawSeats n config).getD j 0 with hr
    rw [← hraw]
    have hfloor_le : ((⌊r⌋ : Int) : ℚ) ≤ r := Int.floor_le r
    have hfloor_gt : r < ((⌊r⌋ : Int) : ℚ) + 1 := Int.lt_floor_add_one r
    rw [hcval, hfl]
    split
    · push_cast
      rw [abs_le]
      constructor <;> linarith
    · push_cast
      rw [abs_le]
      constructor <;> linarith

/-- Witness for C3 at 6 voters and the config `{a: 3, b: 1}`: the pool
is `[a, a, a, a, b, b]`. -/
theorem distribute_strategies_pool_spec_witness :
    (distribute_strategies_to_voters [0, 1, 2, 3, 4, 5] [("a", 3), ("b", 1)]).length =
      ([0, 1, 2, 3, 4, 5] : List ℕ).length ∧
    distribute_strategies_to_voters [0, 1, 2, 3, 4, 5] [("a", 3), ("b", 1)] =
      (([("a", 3), ("b", 1)] : List (String × ℚ)).map Prod.fst).flatMap (fun s =>
        List.replicate
          ((distribute_strategies_to_voters [0, 1, 2, 3, 4, 5]
            [("a", 3), ("b", 1)]).count s) s) ∧
    ∀ p ∈ ([("a", 3), ("b", 1)] : List (String × ℚ)),
      |((distribute_strategies_to_voters [0, 1, 2, 3, 4, 5]
          [("a", 3), ("b", 1)]).count p.1 : ℚ) -
        p.2 / (([("a", 3), ("b", 1)] : List (String × ℚ)).map Prod.snd).sum *
          ([0, 1, 2, 3, 4, 5] : List ℕ).length| ≤ 1 :=
  distribute_strategies_pool_spec [0, 1, 2, 3, 4, 5] [("a", 3), ("b", 1)]
    (by decide) (by norm_num) (by norm_num)

/-- Embedding of `score_bullet` from `simulation.py` lines 58-62.  The
random favourite `fav = random.randrange(candidate_count)` is injected
as a parameter.  Note the hard-coded scores `10` and `0`: the score
range arguments are ignored. -/
def score_bullet (fav : ℕ) (score_range_min score_range_max : Int)
    (candidate_count : ℕ) : List Int :=
  (List.range candidate_count).map (fun i => if i = fav then 10 else 0)

namespace app

/-- Embedding of `score_bullet` from `app/simulation.py` lines 57-61:
the favourite receives `score_range_max`, all others
`score_range_min`. -/
def score_bullet (fav : ℕ) (score_range_min score_range_max : Int)
    (candidate_count : ℕ) : List Int :=
  (List.range candidate_count).map
    (fun i => if i = fav then score_range_max else score_range_min)

end app

/-- C4 (code bug in `simulation.py`): with score range `[0, 5]` and two
candidates, `score_bullet` emits the vector `[10, 0]` - no entry equals
`scoreMax = 5` and the favourite's score `10` lies outside the
configured range - while the `app/simulation.py` copy emits `[5, 0]` as
the claim (and the comment at `simulation.py` line 27) describes. -/
theorem score_bullet_ignores_range :
    score_bullet 0 0 5 2 = [10, 0] ∧
    (score_bullet 0 0 5 2).count 5 = 0 ∧
    (10 : Int) ∉ Set.Icc (0 : Int) 5 ∧
    app.score_bullet 0 0 5 2 = [5, 0] := by
  refine ⟨by decide, by decide, by simp, by decide⟩

/-- Python `max()` on a list of ints; raises on an empty list in
Python, so the empty case (defaulted to 0 here) is never exercised by
the theorems below. -/
def pyMax (l : List Int) : Int :=
  match l with
  | [] => 0
  | a :: t => t.foldl max a

/-- Python `min()` on a list of ints; empty case as in `pyMax`. -/
def pyMin (l : List Int) : Int :=
  match l with
  | [] => 0
  | a :: t => t.foldl min a

/-- Python `round()`: round half to even. -/
def pyRound (q : ℚ) : Int :=
  if q - ⌊q⌋ < 1 / 2 then ⌊q⌋
  else if 1 / 2 < q - ⌊q⌋ then ⌊q⌋ + 1
  else if ⌊q⌋ % 2 = 0 then ⌊q⌋ else ⌊q⌋ + 1

/-- Embedding of `score_biased_towards_young_candidates` from
`simulation.py` lines 104-114: the normalisation divides by the MAXIMUM
age (not the age span), there is no clamping and no equal-age branch.
(In Python, all ages equal to 0 raises ZeroDivisionError; the rational
embedding is only used away from that case.) -/
def score_biased_towards_young_candidates (score_range_min score_range_max : Int)
    (candidates : List Candidate) : List Int :=
  let max_age := pyMax (candidates.map Candidate.age)
  candidates.map (fun c =>
    pyRound ((score_range_min : ℚ) +
      ((max_age : ℚ) - (c.age : ℚ)) / (max_age : ℚ) *
        ((score_range_max : ℚ) - (score_range_min : ℚ))))

namespace app

/-- Embedding of `score_biased_towards_young_candidates` from
`app/simulation.py` lines 103-117: normalisation by the age span
`max_age - min_age`, the equal-age case scores `score_range_max`, and
the rounded result is clamped into the range. -/
def score_biased_towards_young_candidates (score_range_min score_range_max : Int)
    (candidates : List Candidate) : List Int :=
  let max_age := pyMax (candidates.map Candidate.age)
  let min_age := pyMin (candidates.map Candidate.age)
  candidates.map (fun c =>
    let score : ℚ :=
      if max_age = min_age then (score_range_max : ℚ)
      else (score_range_min : ℚ) +
        ((max_age : ℚ) - (c.age : ℚ)) / ((max_age : ℚ) - (min_age : ℚ)) *
          ((score_range_max : ℚ) - (score_range_min : ℚ))
    max score_range_min (min score_range_max (pyRound score)))

end app

/-- The young-candidate bias exactly as the specification words it:
linear normalisation of `(max age - candidate age)` into
`[scoreMin, scoreMax]` scaled by the age span `(max age - min age)`,
rounded and clamped; when all ages are equal every candidate receives
`scoreMax`.  Stated separately from the source embeddings so the two
can be compared. -/
def young_bias_spec (score_range_min score_range_max : Int)
    (candidates : List Candidate) : List Int :=
  let max_age := pyMax (candidates.map Candidate.age)
  let min_age := pyMin (candidates.map Candidate.age)
  if max_age = min_age then
    List.replicate candidates.length score_range_max
  else
    candidates.map (fun c =>
      max score_range_min (min score_range_max (pyRound
        ((score_range_min : ℚ) +
          ((max_age : ℚ) - (c.age : ℚ)) / ((max_age : ℚ) - (min_age : ℚ)) *
            ((score_range_max : ℚ) - (score_range_min : ℚ))))))

lemma pyRound_intCast (z : Int) : pyRound (z : ℚ) = z := by
  unfold pyRound
  rw [Int.floor_intCast]
  norm_num

/-- C8 (amended): the `app/simulation.py` implementation of the
young-candidate bias agrees with the specification formula (span
normalisation, rounding, clamping, all-equal-ages giving `scoreMax`)
for every candidate list whenever `scoreMin ≤ scoreMax`; the older
`simulation.py` copy does not (see the counterexample). -/
theorem app_score_young_matches_spec (score_range_min score_range_max : Int)
    (hle : score_range_min ≤ score_range_max) (candidates : List Candidate) :
    app.score_biased_towards_young_candidates score_range_min score_range_max
      candidates = young_bias_spec score_range_min score_range_max candidates := by
  unfold app.score_biased_towards_young_candidates young_bias_spec
  by_cases heq : pyMax (candidates.map Candidate.age) =
      pyMin (candidates.map Candidate.age)
  · rw [if_pos heq]
    have hmap : ∀ c ∈ candidates,
        (let score : ℚ :=
          if pyMax (candidates.map Candidate.age) =
              pyMin (candidates.map Candidate.age) then (score_range_max : ℚ)
          else (score_range_min : ℚ) +
            ((pyMax (candidates.map Candidate.age) : ℚ) - (c.age : ℚ)) /
              ((pyMax (candidates.map Candidate.age) : ℚ) -
                (pyMin (candidates.map Candidate.age) : ℚ)) *
              ((score_range_max : ℚ) - (score_range_min : ℚ))
         max score_range_min (min score_range_max (pyRound score))) =
          score_range_max := by
      intro c _
      simp only [if_pos heq, pyRound_intCast, min_self, min_eq_right (le_refl _)]
      simp [max_eq_right hle]
    rw [List.map_congr_left hmap]
    exact List.map_const' candidates score_range_max ▸ rfl
  · rw [if_neg heq]
    exact List.map_congr_left (fun c _ => by simp only [if_neg heq])

/-- Counterexample to C8 as stated: for two candidates of equal age 30
and score range `[2, 8]`, `simulation.py`'s
`score_biased_towards_young_candidates` returns `[2, 2]` (it computes
`(max_age - age) / max_age = 0` for everyone), while the claimed
formula - all-equal ages give every candidate `scoreMax` - yields
`[8, 8]`. -/
theorem score_young_equal_ages_counterexample :
    score_biased_towards_young_candidates 2 8
      [{ name := "A", party := "P1", political_position := "Center",
          age := 30, experience := 3, gender := "F" },
       { name := "B", party := "P2", political_position := "Left",
          age := 30, experience := 10, gender := "M" }] = [2, 2] ∧
    young_bias_spec 2 8
      [{ name := "A", party := "P1", political_position := "Center",
          age := 30, experience := 3, gender := "F" },
       { name := "B", party := "P2", political_position := "Left",
          age := 30, experience := 10, gender := "M" }] = [8, 8] ∧
    ([2, 2] : List Int) ≠ [8, 8] := by
  refine ⟨?_, ?_, by decide⟩
  · have h2 : pyRound (2 : ℚ) = 2 := by
      rw [show (2 : ℚ) = ((2 : Int) : ℚ) by norm_num]
      exact pyRound_intCast 2
    unfold score_biased_towards_young_candidates pyMax
    norm_num [h2]
  · unfold young_bias_spec pyMax pyMin
    norm_num
    decide

/-- Witness for C8 (amended) at score range `[0, 10]` and candidate
ages 20 and 60. -/
theorem app_score_young_matches_spec_witness :
    app.score_biased_towards_young_candidates 0 10
      [{ name := "A", party := "P1", political_position := "Center",
          age := 20, experience := 3, gender := "F" },
       { name := "B", party := "P2", political_position := "Left",
          age := 60, experience := 10, gender := "M" }] =
      young_bias_spec 0 10
        [{ name := "A", party := "P1", political_position := "Center",
            age := 20, experience := 3, gender := "F" },
         { name := "B", party := "P2", political_position := "Left",
            age := 60, experience := 10, gender := "M" }] :=
  app_score_young_matches_spec 0 10 (by decide) _

/-- The ledger (smart contract) operations that `run_election` issues,
in the order the code issues them. -/
inductive LedgerCall
  | deploy
  | addCandidate (name party : String)
  | createDistrict (name : String)
  | startRegistration
  | batchRegisterVoters (districtId : Int)
  | startVoting
  | endVoting
  | collectResults
deriving DecidableEq, Repr

/-- The request configuration (`app/models.py InputConfiguration`); the
strategy weights are an ordered map as in
`distribute_strategies_to_voters`. -/
structure InputConfiguration where
  number_of_voters : Int
  number_of_districts : Int
  number_of_candidates : ℕ
  score_range_min : Int
  score_range_max : Int
  voting_strategies : List (String × ℚ)

/-- Embedding of `generate_candidates(number_of_candidates)`
(`simulation.py` lines 117-126): `records` is the parsed content of
`candidates.csv`; `sample` injects the `random.sample` choice of
distinct rows. -/
def generate_candidates (records : List Candidate) (sample : ℕ → List Candidate)
    (number_of_candidates : ℕ) : Except String (List Candidate) :=
  if number_of_candidates > records.length then
    Except.error "Requested more candidates than available in candidates.csv"
  else
    Except.ok (sample number_of_candidates)

/-- The opening phase of `run_election` (`simulation.py` lines 335-370,
same order at `app/simulation.py` lines 411-447) together with the
trace of ledger calls issued so far: assert the node connection, deploy
the ElectionOrchestrator contract (the first ledger call, line 354),
then generate the candidates (line 365), which fails with a
configuration error when more candidates are requested than the source
holds.  The returned trace lists the ledger calls already made when
the phase ends. -/
def run_election_setup (connected : Bool) (records : List Candidate)
    (sample : ℕ → List Candidate) (config : InputConfiguration) :
    List LedgerCall × Except String (List Candidate) :=
  if connected = false then
    ([], Except.error "Failed to connect to Hardhat node.")
  else
    match generate_candidates records sample config.number_of_candidates with
    | Except.error e => ([LedgerCall.deploy], Except.error e)
    | Except.ok cs => ([LedgerCall.deploy], Except.ok cs)

/-- C5 (amended): requesting more candidates than the source holds
makes the run fail with a configuration error, but only after the
orchestrator contract deployment: at the moment of failure exactly one
ledger call - the deployment - has been made (and no candidate,
district, registration or voting call). -/
theorem candidate_overflow_fails_after_deploy (records : List Candidate)
    (sample : ℕ → List Candidate) (config : InputConfiguration)
    (hover : records.length < config.number_of_candidates) :
    (run_election_setup true records sample config).1 = [LedgerCall.deploy] ∧
    ∃ msg, (run_election_setup true records sample config).2 =
      Except.error msg := by
  unfold run_election_setup generate_candidates
  rw [if_neg (by simp), if_pos (by omega)]
  exact ⟨rfl, _, rfl⟩

/-- Witness for C5 (amended) with a one-record source and two requested
candidates. -/
theorem candidate_overflow_fails_after_deploy_witness :
    (run_election_setup true
      [{ name := "A", party := "P", political_position := "Center",
          age := 40, experience := 5, gender := "F" }] (fun _ => [])
      { number_of_voters := 10, number_of_districts := 2,
        number_of_candidates := 2, score_range_min := 0,
        score_range_max := 10, voting_strategies := [] }).1 =
      [LedgerCall.deploy] ∧
    ∃ msg, (run_election_setup true
      [{ name := "A", party := "P", political_position := "Center",
          age := 40, experience := 5, gender := "F" }] (fun _ => [])
      { number_of_voters := 10, number_of_districts := 2,
        number_of_candidates := 2, score_range_min := 0,
        score_range_max := 10, voting_strategies := [] }).2 =
      Except.error msg :=
  candidate_overflow_fails_after_deploy _ _ _ (by decide)

/-- Counterexample to C5 as stated: with an empty candidate source and
one requested candidate the run does fail with a configuration error,
but a ledger call HAS been made - the trace at the failure is
`[deploy]`, not empty. -/
theorem candidate_overflow_deploy_already_made :
    (∃ msg, (run_election_setup true [] (fun _ => [])
      { number_of_voters := 10, number_of_districts := 2,
        number_of_candidates := 1, score_range_min := 0,
        score_range_max := 10, voting_strategies := [] }).2 =
        Except.error msg) ∧
    (run_election_setup true [] (fun _ => [])
      { number_of_voters := 10, number_of_districts := 2,
        number_of_candidates := 1, score_range_min := 0,
        score_range_max := 10, voting_strategies := [] }).1 ≠ [] :=
  ⟨⟨_, rfl⟩, by decide⟩

/-- The result dict returned by `register_district_sync`
(`simulation.py` lines 171-206).  A key that the failure branch does
not set (`votersRegistered`) is an `Option`; `r.get("votersRegistered", 0)`
becomes `getD 0`. -/
structure RegistrationResult where
  success : Bool
  districtId : Int
  votersRegistered : Option Int
  errorMsg : Option String
  skipped : Bool

/-- Embedding of `register_district_sync`'s observable outcome
(`simulation.py` lines 171-206): a district with no voters is skipped
as a success with 0 voters; otherwise the `batchRegisterVoters` ledger
call either succeeds (success with the district's voter count) or
raises (failure, no `votersRegistered` key).  `ledgerOk` injects the
outcome of the ledger call. -/
def register_district_sync (districtId : Int) (voters : List String)
    (ledgerOk : Bool) : RegistrationResult :=
  if voters.length = 0 then
    { success := true, districtId := districtId, votersRegistered := some 0,
      errorMsg := none, skipped := true }
  else if ledgerOk then
    { success := true, districtId := districtId,
      votersRegistered := some (voters.length : Int), errorMsg := none,
      skipped := false }
  else
    { success := false, districtId := districtId, votersRegistered := none,
      errorMsg := some "registration failed", skipped := false }

/-- Embedding of `check_registration_results` (`simulation.py` lines
222-243): the expected total sums `votersRegistered` (default 0) over
the SUCCESSFUL results only, and the assertion that the ledger-reported
total equals it becomes an `Except.error` (a fatal AssertionError in
Python). -/
def check_registration_results (registration_results : List RegistrationResult)
    (total_voters_registered : Int) : Except String Unit :=
  let successful_registrations := registration_results.filter (fun r => r.success)
  let expected_registrations :=
    (successful_registrations.map (fun r => r.votersRegistered.getD 0)).sum
  if total_voters_registered = expected_registrations then Except.ok ()
  else Except.error "Mismatch: registered voters differ from expected"

lemma expected_registrations_eq (districts : List (Int × List String × Bool)) :
    (((districts.map (fun d => register_district_sync d.1 d.2.1 d.2.2)).filter
        (fun r => r.success)).map (fun r => r.votersRegistered.getD 0)).sum =
      ((districts.filter (fun d => d.2.2 || d.2.1.isEmpty)).map
        (fun d => (d.2.1.length : Int))).sum := by
  induction districts with
  | nil => rfl
  | cons d rest ih =>
      rw [List.map_cons, List.filter_cons, List.filter_cons]
      by_cases he : d.2.1 = []
      · have h1 : register_district_sync d.1 d.2.1 d.2.2 =
            { success := true, districtId := d.1, votersRegistered := some 0,
              errorMsg := none, skipped := true } := by
          unfold register_district_sync
          rw [if_pos (by simp [he])]
        have h2 : (d.2.2 || d.2.1.isEmpty) = true := by simp [he]
        simp only [h1, h2, if_true, List.map_cons, List.sum_cons,
          Option.getD_some]
        rw [ih]
        simp [he]
      · have hne : d.2.1.length ≠ 0 := by simpa [List.length_eq_zero] using he
        by_cases ho : d.2.2
        · have h1 : register_district_sync d.1 d.2.1 d.2.2 =
              { success := true, districtId := d.1,
                votersRegistered := some (d.2.1.length : Int), errorMsg := none,
                skipped := false } := by
            unfold register_district_sync
            rw [if_neg (by simpa using hne), if_pos ho]
          have h2 : (d.2.2 || d.2.1.isEmpty) = true := by simp [ho]
          simp only [h1, h2, if_true, List.map_cons, List.sum_cons,
            Option.getD_some]
          rw [ih]
        · have h1 : register_district_sync d.1 d.2.1 d.2.2 =
              { success := false, districtId := d.1, votersRegistered := none,
                errorMsg := some "registration failed", skipped := false } := by
            unfold register_district_sync
            rw [if_neg (by simpa using hne), if_neg ho]
          have h2 : (d.2.2 || d.2.1.isEmpty) = false := by
            simp [List.isEmpty_iff, he]
            simpa using ho
          simp only [h1, h2, if_false, Bool.false_eq_true]
          rw [ih]

/-- C6: the consistency check passes exactly when the ledger-reported
total equals the sum of voter counts over the districts whose
registration succeeded (including zero-voter skipped districts); a
failed district's voters are excluded from the expected total, so a
run with one failed district and a matching ledger count raises no
consistency error, while any mismatch is a fatal error. -/
theorem check_registration_results_consistency
    (districts : List (Int × List String × Bool)) (total : Int) :
    check_registration_results
        (districts.map (fun d => register_district_sync d.1 d.2.1 d.2.2)) total =
      Except.ok () ↔
      total = ((districts.filter (fun d => d.2.2 || d.2.1.isEmpty)).map
        (fun d => (d.2.1.length : Int))).sum := by
  have hexp := expected_registrations_eq districts
  simp only [check_registration_results]
  split_ifs with hc
  · exact iff_of_true rfl (hc.trans hexp)
  · refine iff_of_false (by simp) (fun h => hc (h.trans hexp.symm))

/-- The join of the ledger-reported tally with the locally held
candidate records in `run_election` (`simulation.py` lines 474-495,
identical at `app/simulation.py` lines 544-565): each ledger entry
`(name, party, total_score, votes)` is matched with the first local
candidate of the same name and party, falling back to a placeholder
candidate with Unknown demographic fields.  (Python fills the
placeholder demographics with the string "Unknown"; the demographic
payload is irrelevant to the ordering verified here, so the integer
fields default to 0.) -/
def buildCombined (ledger : List (String × String × Int × Int))
    (candidates : List Candidate) : List (Candidate × Int × Int) :=
  ledger.map (fun e =>
    match candidates.find? (fun c => c.name == e.1 && c.party == e.2.1) with
    | some c => (c, e.2.2.1, e.2.2.2)
    | none =>
        ({ name := e.1, party := e.2.1, political_position := "Unknown",
           age := 0, experience := 0, gender := "Unknown" }, e.2.2.1, e.2.2.2))

/-- Embedding of `combined.sort(key=lambda x: x[1], reverse=True)`
(`simulation.py`
line 498): Python's list sort is stable, and with `reverse=True` it
reverses the comparison, not the output, so entries with equal keys
keep their original relative order.  `List.mergeSort` with the
comparison "a before b when b's total ≤ a's total" has exactly this
behaviour. -/
def sortCombined (combined : List (Candidate × Int × Int)) :
    List (Candidate × Int × Int) :=
  combined.mergeSort (fun a b => decide (b.2.1 ≤ a.2.1))

/-- C7: the result aggregation sorts the joined list by total score in
descending order, as a permutation of the joined list, and the sort is
stable: for every score value, the entries carrying that total score
appear in the output in exactly the order in which the ledger reported
them. -/
theorem results_sorted_descending_stable
    (ledger : List (String × String × Int × Int)) (candidates : List Candidate) :
    (sortCombined (buildCombined ledger candidates)).Perm
      (buildCombined ledger candidates) ∧
    (sortCombined (buildCombined ledger candidates)).Pairwise
      (fun a b => b.2.1 ≤ a.2.1) ∧
    ∀ s : Int, (sortCombined (buildCombined ledger candidates)).filter
        (fun x => x.2.1 == s) =
      (buildCombined ledger candidates).filter (fun x => x.2.1 == s) := by
  set l := buildCombined ledger candidates with hl
  have htrans : ∀ a b c : Candidate × Int × Int,
      decide (b.2.1 ≤ a.2.1) → decide (c.2.1 ≤ b.2.1) →
      decide (c.2.1 ≤ a.2.1) := by
    intro a b c hab hbc
    simp only [decide_eq_true_eq] at *
    omega
  have htotal : ∀ a b : Candidate × Int × Int,
      decide (b.2.1 ≤ a.2.1) || decide (a.2.1 ≤ b.2.1) := by
    intro a b
    simp only [Bool.or_eq_true, decide_eq_true_eq]
    omega
  refine ⟨List.mergeSort_perm l _, ?_, ?_⟩
  · have := List.sorted_mergeSort htrans htotal l
    exact this.imp (fun h => by simpa using h)
  · intro s
    set p : Candidate × Int × Int → Bool := fun x => x.2.1 == s with hp
    have hkey : ∀ x ∈ l.filter p, x.2.1 = s := by
      intro x hx
      have := List.of_mem_filter hx
      simpa [hp] using this
    have hcpair : (l.filter p).Pairwise
        (fun a b => (decide (b.2.1 ≤ a.2.1)) = true) := by
      rw [List.pairwise_iff_forall_sublist]
      intro a b hab
      have ha := hkey a (hab.subset (by simp))
      have hb := hkey b (hab.subset (by simp))
      simp [ha, hb]
    have hsub : (l.filter p).Sublist (sortCombined l) :=
      List.sublist_mergeSort htrans htotal hcpair (List.filter_sublist l)
    have hsub2 : ((l.filter p).filter p).Sublist ((sortCombined l).filter p) :=
      hsub.filter p
    have hself : (l.filter p).filter p = l.filter p :=
      List.filter_eq_self.2 (fun x hx => List.of_mem_filter hx)
    rw [hself] at hsub2
    have hperm : ((sortCombined l).filter p).Perm (l.filter p) :=
      (List.mergeSort_perm l _).filter p
    exact (hsub2.eq_of_length hperm.length_eq.symm).symm

/-- One shared-state event of the increment
`gas_tracker['gas'] += gas_used` in `track_gas` (`simulation.py` lines
129-136, identical at `app/simulation.py` lines 132-139).  The Python
statement is not atomic: it compiles to a read of the dict entry
followed by a write of the read value plus the amount, and the
registration/voting worker threads may interleave between the two. -/
inductive TrackEvent
  | read (worker : ℕ)
  | write (worker : ℕ)
deriving DecidableEq, Repr

/-- The shared counter `gas_tracker['gas']` plus each worker's
captured read value (none before the worker has read). -/
structure TrackState where
  total : Int
  captured : ℕ → Option Int

/-- One step of the interleaving semantics: a read captures the current
total for the worker; a write stores the worker's captured value plus
its amount (a write without a preceding read - which no execution of
the Python statement produces - leaves the state unchanged). -/
def trackStep (amounts : ℕ → Int) (s : TrackState) (e : TrackEvent) : TrackState :=
  match e with
  | TrackEvent.read i =>
      { s with captured := fun j => if j = i then some s.total else s.captured j }
  | TrackEvent.write i =>
      match s.captured i with
      | some t => { s with total := t + amounts i }
      | none => s

/-- Run a schedule of read/write events against the tracker, starting
from the initial `gas_tracker = {"gas": 0}`. -/
def runTrack (amounts : ℕ → Int) (schedule : List TrackEvent) : TrackState :=
  schedule.foldl (trackStep amounts) { total := 0, captured := fun _ => none }

/-- The schedule in which the listed workers perform their increments
one after another (each read immediately followed by its write). -/
def serialSchedule (workers : List ℕ) : List TrackEvent :=
  workers.flatMap (fun i => [TrackEvent.read i, TrackEvent.write i])

lemma foldl_serial_total (amounts : ℕ → Int) (workers : List ℕ) :
    ∀ s : TrackState,
      ((serialSchedule workers).foldl (trackStep amounts) s).total =
        s.total + (workers.map amounts).sum := by
  induction workers with
  | nil => intro s; simp [serialSchedule]
  | cons i rest ih =>
      intro s
      have hflat : serialSchedule (i :: rest) =
          TrackEvent.read i :: TrackEvent.write i :: serialSchedule rest := rfl
      rw [hflat]
      simp only [List.foldl_cons]
      have hstep : trackStep amounts (trackStep amounts s (TrackEvent.read i))
          (TrackEvent.write i) =
          { total := s.total + amounts i,
            captured := fun j => if j = i then some s.total else s.captured j } := by
        simp [trackStep]
      rw [hstep, ih]
      simp only [List.map_cons, List.sum_cons]
      ring

/-- C9 (amended): applying the workers' increments serially - each
read immediately followed by its write, in any worker order - yields a
final total equal to the sum of the amounts; under true interleaving
the read-modify-write is not atomic and increments can be lost (see the
counterexample). -/
theorem track_gas_serial_total (amounts : ℕ → Int) (workers : List ℕ) :
    (runTrack amounts (serialSchedule workers)).total =
      (workers.map amounts).sum := by
  unfold runTrack
  rw [foldl_serial_total]
  simp

/-- Counterexample to C9 as stated: two workers each add 1, but in the
interleaving read0-read1-write0-write1 (each worker still performs its
read exactly once before its single write) the final total is 1, not
the serial total 2 - one increment is lost, so the total is NOT
independent of thread interleaving. -/
theorem track_gas_lost_update :
    (runTrack (fun _ => 1) [TrackEvent.read 0, TrackEvent.read 1,
      TrackEvent.write 0, TrackEvent.write 1]).total = 1 ∧
    (runTrack (fun _ => 1) (serialSchedule [0, 1])).total = 2 ∧
    (1 : Int) ≠ 2 := by
  refine ⟨rfl, rfl, by decide⟩

end BTDA
